import Mathlib

/-! Inline hook demo: a shallow embedding of `hook.c` and `funcaddr.c`.

The development models

* the three preprocessor variants of `inline_hook_replace_inst` (x86-64, AArch64, 32-bit ARM),
* `get_page_addr`, `inline_hook` and `remove_hook` over an explicit machine state
  (byte-addressed memory and per-address page protection, which decides whether a load or
  store is carried out or kills the process),
* `get_function_addr_elf_pie` over the records that its two scanning loops read.

Machine integers are `Nat`/`Int` with explicit reduction modulo `2 ^ w`.
-/

namespace InlineHook

/-! ## Machine integers -/

/-- Value of a mathematical integer after conversion to an unsigned `w`-bit type. -/
def toUnsigned (w : Nat) (x : Int) : Nat := (x % 2 ^ w).toNat

/-- Value of a mathematical integer after conversion to a signed `w`-bit two's complement type
(wrapping, as GCC and Clang implement the conversion). -/
def toSigned (w : Nat) (x : Int) : Int := (x + 2 ^ (w - 1)) % 2 ^ w - 2 ^ (w - 1)

/-! ## Architectures -/

/-- The instruction-set variant chosen by the `#if` chain at the top of `hook.c`. -/
inductive Arch
  | x86_64
  | aarch64
  | arm
  deriving DecidableEq, Repr

/-- The macro `SIZE_ORIG_BYTES` of `hook.c`, one value per variant. -/
def SIZE_ORIG_BYTES : Arch → Nat
  | .x86_64 => 16
  | .aarch64 => 32
  | .arm => 20

/-- Width in bits of `void *`, `uintptr_t` and `intptr_t` on each variant. -/
def ptrBits : Arch → Nat
  | .x86_64 => 64
  | .aarch64 => 64
  | .arm => 32

/-! ## Memory -/

/-- Byte-addressed memory: the byte stored at each address. -/
abbrev Mem := Nat → Nat

/-- Store of one `unsigned char`. -/
def storeByte (m : Mem) (a v : Nat) : Mem :=
  fun x => if x = a then v % 256 else m x

/-- Store of an `n`-byte scalar in little-endian byte order (all three targets are
little-endian under Linux). -/
def storeLE (n : Nat) (m : Mem) (a v : Nat) : Mem :=
  fun x => if a ≤ x ∧ x < a + n then (v / 256 ^ (x - a)) % 256 else m x

/-- Load of an `n`-byte little-endian scalar. -/
def loadLE : Nat → Mem → Nat → Nat
  | 0, _, _ => 0
  | n + 1, m, a => m a % 256 + 256 * loadLE n m (a + 1)

/-- The libc call `memcpy(dst, src, n)`: every destination byte receives the source byte as it
was before the call.  (C leaves overlapping copies undefined; statements that depend on the
copied bytes assume the two ranges are disjoint.) -/
def memcpy (m : Mem) (dst src n : Nat) : Mem :=
  fun x => if dst ≤ x ∧ x < dst + n then m (src + (x - dst)) else m x

/-! ## Protection flags (`sys/mman.h`, Linux values) -/

/-- The flag `PROT_READ`. -/
def PROT_READ : Nat := 1

/-- The flag `PROT_WRITE`. -/
def PROT_WRITE : Nat := 2

/-- The flag `PROT_EXEC`. -/
def PROT_EXEC : Nat := 4

/-- Machine state seen by the hook controller: memory bytes and, for each address, the
protection flags of the page that contains it.  A load or store of the C code is carried out
only where the flags permit it (`readable`, `writable` below); otherwise the process is killed
by a memory fault. -/
structure State where
  mem : Mem
  prot : Nat → Nat

/-- Build parameters and process constants that the functions of `hook.c` read. -/
structure Env where
  /-- Variant selected at compile time. -/
  arch : Arch
  /-- Value returned by `getpagesize()`, an `int`. -/
  pagesize : Int
  /-- Address of the global array `orig_bytes`. -/
  orig_bytes : Nat

/-- The system call `mprotect(addr, len, prot)`, taken as succeeding: every address in
`[addr, addr + len)` receives the new flags. -/
def mprotect (s : State) (addr len prot : Nat) : State :=
  { s with prot := fun a => if addr ≤ a ∧ a < addr + len then prot else s.prot a }

/-- Loads from `[a, a + n)` are permitted: every byte lies in a page mapped with `PROT_READ`
(the flags are read as POSIX defines them; hardware that grants more is not modelled). -/
def readable (s : State) (a n : Nat) : Prop :=
  ∀ i, i < n → s.prot (a + i) &&& PROT_READ ≠ 0

/-- Stores to `[a, a + n)` are permitted: every byte lies in a page mapped with
`PROT_WRITE`. -/
def writable (s : State) (a n : Nat) : Prop :=
  ∀ i, i < n → s.prot (a + i) &&& PROT_WRITE ≠ 0

instance readable_decidable (s : State) (a n : Nat) : Decidable (readable s a n) := by
  unfold readable
  infer_instance

instance writable_decidable (s : State) (a n : Nat) : Decidable (writable s a n) := by
  unfold writable
  infer_instance

/-! ## `hook.c` -/

/-- The local `int offset` of the AArch64 variant:
`((intptr_t)hook_func - (intptr_t)orig_func) / 4`, a 64-bit signed difference divided with
truncation toward zero and then narrowed to the 32-bit `int` it is assigned to. -/
def aarch64_offset (orig_func hook_func : Nat) : Int :=
  toSigned 32 (Int.tdiv (toSigned 64 (toSigned 64 hook_func - toSigned 64 orig_func)) 4)

/-- Body of `inline_hook_replace_inst` for the selected variant.  The result is `none` when the
function calls `exit(1)` (AArch64 range check), otherwise the memory after its stores. -/
def inline_hook_replace_inst (arch : Arch) (m : Mem) (orig_func hook_func : Nat) : Option Mem :=
  match arch with
  | .x86_64 =>
    -- *((unsigned char *)orig_func + 0) = 0xE9;
    let m1 := storeByte m (orig_func + 0) 0xE9
    -- *((void **)((unsigned char *)orig_func + 1)) = hook_func - orig_func - 5;
    some (storeLE 8 m1 (orig_func + 1)
      (toUnsigned 64 (toSigned 64 ((hook_func : Int) - (orig_func : Int)) - 5)))
  | .aarch64 =>
    -- int offset = ((intptr_t)hook_func - (intptr_t)orig_func) / 4;
    let offset : Int := aarch64_offset orig_func hook_func
    if offset < -0x2000000 ∨ offset > 0x1ffffff then
      none
    else
      -- uint32_t branch_instruction = 0x14000000 | (offset & 0x03ffffff);
      let branch_instruction : Nat := 0x14000000 ||| (toUnsigned 32 offset &&& 0x03ffffff)
      some (storeLE 4 m orig_func branch_instruction)
  | .arm =>
    -- int offset = ((intptr_t)hook_func - (intptr_t)orig_func - 8) / 4;
    let offset : Int := Int.tdiv
      (toSigned 32 (toSigned 32 (toSigned 32 hook_func - toSigned 32 orig_func) - 8)) 4
    -- int branch_instruction = 0xEA000000 | (offset & 0x00FFFFFF);
    let branch_instruction : Nat := 0xEA000000 ||| (toUnsigned 32 offset &&& 0x00FFFFFF)
    some (storeLE 4 m orig_func branch_instruction)

/-- Number of bytes that `inline_hook_replace_inst` stores at `orig_func`: the opcode byte and
one `void *` on x86-64, one `uint32_t` on AArch64, one `int` on 32-bit ARM. -/
def patch_size : Arch → Nat
  | .x86_64 => 1 + 8
  | .aarch64 => 4
  | .arm => 4

/-- The function `get_page_addr`: `(uintptr_t)addr & ~(getpagesize() - 1)`.  The mask is
computed in `int` and then converted to `uintptr_t`. -/
def get_page_addr (arch : Arch) (pagesize : Int) (addr : Nat) : Nat :=
  addr &&& toUnsigned (ptrBits arch) (Int.not (toSigned 32 (pagesize - 1)))

/-- The `size_t` length argument `getpagesize()` passed to `mprotect`. -/
def pageLen (env : Env) : Nat := toUnsigned (ptrBits env.arch) env.pagesize

/-- How a call ends: it returns to its caller in state `s`; or the process exits with the
given status while in state `s`; or the process is killed by a memory fault (`SIGSEGV`), `s`
being the state in which the faulting statement began. -/
inductive Outcome
  | returned (s : State)
  | exited (status : Nat) (s : State)
  | faulted (s : State)

/-- State of `inline_hook` after its first two statements: the footprint has been copied to
`orig_bytes` and the page of `orig_func` has been made writable. -/
def inline_hook_widened (env : Env) (s : State) (orig_func : Nat) : State :=
  -- memcpy(orig_bytes, orig_func, SIZE_ORIG_BYTES);
  let s1 : State :=
    { s with mem := memcpy s.mem env.orig_bytes orig_func (SIZE_ORIG_BYTES env.arch) }
  -- mprotect(get_page_addr(orig_func), getpagesize(), PROT_READ | PROT_WRITE | PROT_EXEC);
  mprotect s1 (get_page_addr env.arch env.pagesize orig_func) (pageLen env)
    (PROT_READ ||| PROT_WRITE ||| PROT_EXEC)

/-- The function `inline_hook`.  The first `memcpy` loads the footprint and stores to
`orig_bytes` under the protection found on entry; the patcher stores its `patch_size` bytes
under the protection left by the first `mprotect`. -/
def inline_hook (env : Env) (s : State) (orig_func hook_func : Nat) : Outcome :=
  -- memcpy(orig_bytes, orig_func, SIZE_ORIG_BYTES);
  if readable s orig_func (SIZE_ORIG_BYTES env.arch) ∧
      writable s env.orig_bytes (SIZE_ORIG_BYTES env.arch) then
    let s2 := inline_hook_widened env s orig_func
    -- inline_hook_replace_inst(orig_func, hook_func);
    match inline_hook_replace_inst env.arch s2.mem orig_func hook_func with
    | none => .exited 1 s2
    | some m =>
      if writable s2 orig_func (patch_size env.arch) then
        -- mprotect(get_page_addr(orig_func), getpagesize(), PROT_READ | PROT_EXEC);
        .returned (mprotect { s2 with mem := m } (get_page_addr env.arch env.pagesize orig_func)
          (pageLen env) (PROT_READ ||| PROT_EXEC))
      else
        .faulted s2
  else
    .faulted s

/-- State of `remove_hook` after its first statement: the page of `orig_func` has been made
writable. -/
def remove_hook_widened (env : Env) (s : State) (orig_func : Nat) : State :=
  -- mprotect(get_page_addr(orig_func), getpagesize(), PROT_READ | PROT_WRITE | PROT_EXEC);
  mprotect s (get_page_addr env.arch env.pagesize orig_func) (pageLen env)
    (PROT_READ ||| PROT_WRITE ||| PROT_EXEC)

/-- The function `remove_hook`.  Its `memcpy` loads `orig_bytes` and stores to the footprint
under the protection left by the first `mprotect`. -/
def remove_hook (env : Env) (s : State) (orig_func : Nat) : Outcome :=
  let s1 := remove_hook_widened env s orig_func
  -- memcpy(orig_func, orig_bytes, SIZE_ORIG_BYTES);
  if readable s1 env.orig_bytes (SIZE_ORIG_BYTES env.arch) ∧
      writable s1 orig_func (SIZE_ORIG_BYTES env.arch) then
    let s2 : State :=
      { s1 with mem := memcpy s1.mem orig_func env.orig_bytes (SIZE_ORIG_BYTES env.arch) }
    -- mprotect(get_page_addr(orig_func), getpagesize(), PROT_READ | PROT_EXEC);
    .returned (mprotect s2 (get_page_addr env.arch env.pagesize orig_func) (pageLen env)
      (PROT_READ ||| PROT_EXEC))
  else
    .faulted s1

/-- State carried by an outcome, whichever way the call ended. -/
def Outcome.state : Outcome → State
  | .returned s => s
  | .exited _ s => s
  | .faulted s => s

/-! ## `funcaddr.c` -/

/-- The four permission characters that `%4s` reads from a line of `/proc/self/maps`
(for instance `r-xp`), in order: `perms[0]` to `perms[3]`. -/
structure Perms where
  c0 : Char
  c1 : Char
  c2 : Char
  c3 : Char

/-- What `sscanf(line, "%lx-%*x %4s", &base_address, perms)` extracts from one line of
`/proc/self/maps`: the start address and the permission field.  The listing is taken as the
kernel writes it, one well-formed record per line read by `fgets`. -/
structure MapsRecord where
  start : Nat
  perms : Perms

/-- What one successful `fscanf(offsets, "%lx %*s %255s", &offset, name)` reads from
`maps.off.txt`: the offset, the skipped type tag and the name.  A symbol table is the list of
the records read by the calls that return 2; the loop ends at the first call that does not,
and such a call leaves `name` as it was. -/
structure SymRecord where
  offset : Nat
  type_tag : String
  name : String

/-- The first loop of `get_function_addr_elf_pie`: every line read stores its start address in
`base_address`; the loop leaves at the first line whose `perms[2]` is `x`, or when the listing
ends.  The result is the final value of `base_address`. -/
def scan_maps (base_address : Nat) : List MapsRecord → Nat
  | [] => base_address
  | r :: rest => if r.perms.c2 = 'x' then r.start else scan_maps r.start rest

/-- The second loop of `get_function_addr_elf_pie`: every record read stores its fields in
`offset` and `name`; the loop leaves at the first record whose name equals `func_name`, or when
no further record can be read.  The result is the final value of `(offset, name)`. -/
def scan_offsets (func_name : String) (offset : Nat) (name : String) :
    List SymRecord → Nat × String
  | [] => (offset, name)
  | r :: rest =>
    if r.name = func_name then (r.offset, r.name) else scan_offsets func_name r.offset r.name rest

/-- What the caller of `get_function_addr_elf_pie` observes: the returned pointer (`0` is
`NULL`) and the message written to `err_msg`, if one was written. -/
structure Resolved where
  ret : Nat
  err_msg : Option String
  deriving DecidableEq, Repr

/-- The function `get_function_addr_elf_pie`.  The two files are given by their records, `none`
standing for a file that `fopen` cannot open. -/
def get_function_addr_elf_pie (arch : Arch) (maps : Option (List MapsRecord))
    (offsets : Option (List SymRecord)) (func_name : String) : Resolved :=
  match maps with
  | none => ⟨0, some "Cannot open /proc/self/maps"⟩
  | some lines =>
    -- uintptr_t base_address = 0; while (fgets ...) { sscanf ...; if (perms[2] == 'x') break; }
    let base_address := scan_maps 0 lines
    if base_address = 0 then
      ⟨0, some "Cannot find base address"⟩
    else
      match offsets with
      | none => ⟨0, some "Cannot open offsets file"⟩
      | some records =>
        -- uintptr_t offset = 0; char name[256] = ""; while (fscanf ... == 2) { ... }
        let found := scan_offsets func_name 0 "" records
        if found.2 ≠ func_name then
          ⟨0, some ("Cannot find function " ++ func_name)⟩
        else
          -- (void*)(base_address + offset - 0x1000), in uintptr_t arithmetic
          ⟨toUnsigned (ptrBits arch) ((base_address : Int) + (found.1 : Int) - 0x1000), none⟩

/-! ## Instruction decoding

The functions below are not part of the repository: they record how the processor reads
the bytes that the patcher writes, so that "the patched entry jumps to the hook" can be stated. -/

/-- The x86-64 near jump: opcode `E9` followed by `rel32`, branching to the address of the next
instruction (`pc + 5`) plus the sign-extended displacement. -/
def decode_jmp_rel32 (m : Mem) (pc : Nat) : Option Nat :=
  if m pc = 0xE9 then some (toUnsigned 64 ((pc : Int) + 5 + toSigned 32 (loadLE 4 m (pc + 1))))
  else none

/-- The AArch64 unconditional branch `B`: bits 31..26 are `000101`, the low 26 bits are a
signed word displacement from the address of the instruction itself. -/
def decode_b_imm26 (word pc : Nat) : Option Nat :=
  if word / 2 ^ 26 = 5 then some (toUnsigned 64 ((pc : Int) + 4 * toSigned 26 (word % 2 ^ 26)))
  else none

/-- The 32-bit ARM branch `B` with condition `AL`: the top byte is `0xEA`, the low 24 bits are
a signed word displacement from the address of the instruction plus 8. -/
def decode_b_imm24 (word pc : Nat) : Option Nat :=
  if word / 2 ^ 24 = 0xEA then
    some (toUnsigned 32 ((pc : Int) + 8 + 4 * toSigned 24 (word % 2 ^ 24)))
  else none

/-! ## Sample inputs -/

/-- A memory image with a different byte pattern at neighbouring addresses. -/
def sampleMem : Mem := fun a => (a * 7 + 3) % 256

/-- Protection of a freshly loaded process with 4 KiB pages: the data page
`[0x4000, 0x5000)` is read+write, every other page (code) is read+execute. -/
def sampleProt : Nat → Nat :=
  fun a => if 0x4000 ≤ a ∧ a < 0x5000 then PROT_READ ||| PROT_WRITE else PROT_READ ||| PROT_EXEC

/-- A state with the protection `sampleProt` and the memory image `sampleMem`. -/
def sampleState : State := { mem := sampleMem, prot := sampleProt }

/-- A state as at program start: the 32 bytes from `0x4040` (the backup buffer of `sampleEnv`,
in `.bss`) are zero, the rest is `sampleMem`. -/
def sampleInitialState : State :=
  { mem := fun a => if 0x4040 ≤ a ∧ a < 0x4040 + 32 then 0 else sampleMem a,
    prot := sampleProt }

/-- A process with 4 KiB pages whose backup buffer lies at `0x4040`. -/
def sampleEnv (arch : Arch) : Env := { arch := arch, pagesize := 4096, orig_bytes := 0x4040 }

/-- A mapping listing: a read-only header segment, the code segment, a library. -/
def sampleMaps : List MapsRecord :=
  [⟨0x555555554000, ⟨'r', '-', '-', 'p'⟩⟩, ⟨0x555555555000, ⟨'r', '-', 'x', 'p'⟩⟩,
   ⟨0x7ffff7dd5000, ⟨'r', '-', 'x', 'p'⟩⟩]

/-- A mapping listing without any executable record. -/
def sampleMapsNoExec : List MapsRecord :=
  [⟨0x555555554000, ⟨'r', '-', '-', 'p'⟩⟩, ⟨0x555555557000, ⟨'r', 'w', '-', 'p'⟩⟩]

/-- A symbol table in which `target_fn` occurs twice. -/
def sampleSyms : List SymRecord :=
  [⟨0x2139, "T", "main"⟩, ⟨0x2149, "T", "target_fn"⟩, ⟨0x3000, "T", "target_fn"⟩]


/-! ## Auxiliary lemmas -/

/-- The patcher only writes inside the footprint `[orig_func, orig_func + SIZE_ORIG_BYTES)`. -/
theorem replace_inst_frame (arch : Arch) (m m' : Mem) (f h : Nat)
    (hm : inline_hook_replace_inst arch m f h = some m') (a : Nat)
    (ha : a < f ∨ f + SIZE_ORIG_BYTES arch ≤ a) : m' a = m a := by
  cases arch with
  | x86_64 =>
    simp only [inline_hook_replace_inst, Option.some.injEq] at hm
    subst hm
    simp only [SIZE_ORIG_BYTES] at ha
    simp only [storeLE, storeByte]
    rw [if_neg (by omega), if_neg (by omega)]
  | aarch64 =>
    simp only [inline_hook_replace_inst] at hm
    split at hm
    · exact absurd hm (by simp)
    · simp only [Option.some.injEq] at hm
      subst hm
      simp only [SIZE_ORIG_BYTES] at ha
      simp only [storeLE]
      rw [if_neg (by omega)]
  | arm =>
    simp only [inline_hook_replace_inst, Option.some.injEq] at hm
    subst hm
    simp only [SIZE_ORIG_BYTES] at ha
    simp only [storeLE]
    rw [if_neg (by omega)]

/-- The first loop stops at the first record whose third permission character is `x`. -/
theorem scan_maps_append (pre post : List MapsRecord) (r : MapsRecord) (b : Nat)
    (hpre : ∀ x ∈ pre, x.perms.c2 ≠ 'x') (hr : r.perms.c2 = 'x') :
    scan_maps b (pre ++ r :: post) = r.start := by
  induction pre generalizing b with
  | nil => simp [scan_maps, hr]
  | cons x xs ih =>
    have hx : x.perms.c2 ≠ 'x' := hpre x (by simp)
    simp only [List.cons_append, scan_maps, if_neg hx]
    exact ih x.start (fun y hy => hpre y (by simp [hy]))

/-- Without an executable record the first loop ends with the start address of the last
record read, or with the initial value when the listing is empty. -/
theorem scan_maps_no_exec (lines : List MapsRecord) (b : Nat)
    (hno : ∀ x ∈ lines, x.perms.c2 ≠ 'x') :
    scan_maps b lines = ((lines.map MapsRecord.start).getLast?).getD b := by
  induction lines generalizing b with
  | nil => simp [scan_maps]
  | cons x xs ih =>
    have hx : x.perms.c2 ≠ 'x' := hno x (by simp)
    simp only [scan_maps, if_neg hx, List.map_cons]
    rw [ih x.start (fun y hy => hno y (by simp [hy]))]
    cases hxs : (xs.map MapsRecord.start).getLast? with
    | none =>
      have hnil : xs.map MapsRecord.start = [] := List.getLast?_eq_none_iff.mp hxs
      simp [hnil]
    | some v =>
      have hne : xs.map MapsRecord.start ≠ [] := by
        intro hnil
        rw [hnil] at hxs
        simp at hxs
      obtain ⟨y, ys, hys⟩ := List.exists_cons_of_ne_nil hne
      rw [hys] at hxs ⊢
      rw [List.getLast?_cons_cons, hxs]
      rfl

/-- The second loop stops at the first record whose name is the requested one. -/
theorem scan_offsets_append (n : String) (spre spost : List SymRecord) (q : SymRecord)
    (o : Nat) (nm : String)
    (hspre : ∀ x ∈ spre, x.name ≠ n) (hq : q.name = n) :
    scan_offsets n o nm (spre ++ q :: spost) = (q.offset, q.name) := by
  induction spre generalizing o nm with
  | nil => simp [scan_offsets, hq]
  | cons x xs ih =>
    have hx : x.name ≠ n := hspre x (by simp)
    simp only [List.cons_append, scan_offsets, if_neg hx]
    exact ih x.offset x.name (fun y hy => hspre y (by simp [hy]))

/-- When no record carries the requested name, the loop ends with a `name` different from it,
provided the initial content of `name` differs from it too. -/
theorem scan_offsets_not_found (n : String) (recs : List SymRecord) (o : Nat) (nm : String)
    (hno : ∀ x ∈ recs, x.name ≠ n) (hnm : nm ≠ n) :
    (scan_offsets n o nm recs).2 ≠ n := by
  induction recs generalizing o nm with
  | nil => simpa [scan_offsets] using hnm
  | cons x xs ih =>
    have hx : x.name ≠ n := hno x (by simp)
    simp only [scan_offsets, if_neg hx]
    exact ih x.offset x.name (fun y hy => hno y (by simp [hy])) hx

/-- A missing symbol is reported whenever the requested name is not the empty string. -/
theorem missing_symbol_reported (arch : Arch) (lines : List MapsRecord)
    (recs : List SymRecord) (n : String)
    (hbase : scan_maps 0 lines ≠ 0) (hno : ∀ x ∈ recs, x.name ≠ n) (hn : n ≠ "") :
    get_function_addr_elf_pie arch (some lines) (some recs) n
      = ⟨0, some ("Cannot find function " ++ n)⟩ := by
  have h := scan_offsets_not_found n recs 0 "" hno (fun e => hn e.symm)
  simp only [get_function_addr_elf_pie, if_neg hbase, ne_eq, h, not_false_eq_true, if_true]

/-- Masking with `2 ^ w - 2 ^ k` clears the low `k` bits of a `w`-bit value. -/
theorem and_high_mask (a w k : Nat) (hk : k ≤ w) (ha : a < 2 ^ w) :
    a &&& (2 ^ w - 2 ^ k) = a - a % 2 ^ k := by
  have h1 : 2 ^ w - 2 ^ k = (2 ^ (w - k) - 1) <<< k := by
    rw [Nat.shiftLeft_eq, Nat.sub_mul, ← pow_add, Nat.sub_add_cancel hk, one_mul]
  have h2 : a - a % 2 ^ k = (a >>> k) <<< k := by
    rw [Nat.shiftLeft_eq, Nat.shiftRight_eq_div_pow]
    have h := Nat.div_add_mod a (2 ^ k)
    rw [Nat.mul_comm] at h
    omega
  rw [h1, h2]
  apply Nat.eq_of_testBit_eq
  intro i
  simp only [Nat.testBit_and, Nat.testBit_shiftLeft, Nat.testBit_shiftRight,
    Nat.testBit_two_pow_sub_one]
  by_cases hik : k ≤ i
  · have hki : k + (i - k) = i := by omega
    rw [hki]
    by_cases hiw : i < w
    · have : i - k < w - k := by omega
      simp [hik, this]
    · have hfalse : a.testBit i = false := by
        apply Nat.testBit_lt_two_pow
        exact lt_of_lt_of_le ha (Nat.pow_le_pow_right (by decide) (by omega))
      simp [hfalse]
  · simp [hik]

/-- The C operator `~` on a two's complement integer. -/
theorem int_not_eq (x : Int) : Int.not x = -x - 1 := by
  cases x with
  | ofNat n => simp only [Int.not, Int.negSucc_eq, Int.ofNat_eq_coe]; omega
  | negSucc n => simp only [Int.not, Int.negSucc_eq, Int.ofNat_eq_coe]; omega

/-- The mask `~(P - 1)` for `P = 2 ^ k`, after conversion to a `w`-bit unsigned type. -/
theorem page_mask (w k : Nat) (hk : k ≤ 30) (hw : 32 ≤ w) :
    toUnsigned w (Int.not (toSigned 32 ((2 : Int) ^ k - 1))) = 2 ^ w - 2 ^ k := by
  have hpos : (1 : Int) ≤ 2 ^ k := one_le_pow₀ (by norm_num)
  have hlt : (2 : Int) ^ k ≤ 2 ^ 30 := pow_le_pow_right₀ (by norm_num) hk
  have hs : toSigned 32 ((2 : Int) ^ k - 1) = 2 ^ k - 1 := by
    simp only [toSigned]
    norm_num at hlt ⊢
    omega
  rw [hs, int_not_eq]
  simp only [toUnsigned]
  have hkw : (2 : Int) ^ k ≤ 2 ^ w := pow_le_pow_right₀ (by norm_num) (by omega)
  have e : (-((2 : Int) ^ k - 1) - 1) % 2 ^ w = 2 ^ w - 2 ^ k := by
    have : (-((2 : Int) ^ k - 1) - 1) = (2 ^ w - 2 ^ k) + (-1) * 2 ^ w := by ring
    rw [this, Int.add_mul_emod_self]
    apply Int.emod_eq_of_lt <;> omega
  rw [e]
  have hkw' : (2 : Nat) ^ k ≤ 2 ^ w := Nat.pow_le_pow_right (by decide) (by omega)
  zify [hkw']
  rw [Int.toNat_of_nonneg (by omega)]

/-- Closed form of `get_page_addr` for a power-of-two page size. -/
theorem get_page_addr_eq (arch : Arch) (k a : Nat) (hk : k ≤ 30) (ha : a < 2 ^ ptrBits arch) :
    get_page_addr arch (2 ^ k) a = a - a % 2 ^ k := by
  have hw : 32 ≤ ptrBits arch := by cases arch <;> simp [ptrBits]
  simp only [get_page_addr]
  rw [page_mask (ptrBits arch) k hk hw]
  exact and_high_mask a (ptrBits arch) k (by omega) ha

/-- The page size converts to `size_t` unchanged. -/
theorem toUnsigned_two_pow (w k : Nat) (hkw : k < w) : toUnsigned w ((2 : Int) ^ k) = 2 ^ k := by
  have hlt : (2 : Int) ^ k < 2 ^ w := pow_lt_pow_right₀ (by norm_num) hkw
  have hpos : (0 : Int) ≤ 2 ^ k := by positivity
  simp only [toUnsigned]
  rw [Int.emod_eq_of_lt hpos hlt]
  have : ((2 : Int) ^ k) = ((2 ^ k : Nat) : Int) := by push_cast; rfl
  rw [this, Int.toNat_ofNat]

/-- A 32-bit little-endian store followed by a load at the same address. -/
theorem loadLE_four_storeLE_four (m : Mem) (a v : Nat) :
    loadLE 4 (storeLE 4 m a v) a = v % 2 ^ 32 := by
  have e1 : a + 1 - a = 1 := by omega
  have e2 : a + 1 + 1 - a = 2 := by omega
  have e3 : a + 1 + 1 + 1 - a = 3 := by omega
  simp only [loadLE, storeLE]
  rw [if_pos (by omega), if_pos (by omega), if_pos (by omega), if_pos (by omega)]
  rw [Nat.sub_self, e1, e2, e3]
  norm_num
  omega

/-- The stored patch never exceeds the backed-up footprint. -/
theorem patch_size_le (arch : Arch) : patch_size arch ≤ SIZE_ORIG_BYTES arch := by
  cases arch <;> simp [patch_size, SIZE_ORIG_BYTES]

/-- Outside the bytes it stores, the patcher leaves memory as it was. -/
theorem replace_inst_outside (arch : Arch) (m m' : Mem) (f h : Nat)
    (hm : inline_hook_replace_inst arch m f h = some m') (a : Nat)
    (ha : ¬(f ≤ a ∧ a < f + patch_size arch)) : m' a = m a := by
  cases arch with
  | x86_64 =>
    simp only [inline_hook_replace_inst, Option.some.injEq] at hm
    subst hm
    simp only [patch_size] at ha
    simp only [storeLE, storeByte]
    rw [if_neg (by omega), if_neg (by omega)]
  | aarch64 =>
    simp only [inline_hook_replace_inst] at hm
    split at hm
    · exact absurd hm (by simp)
    · simp only [Option.some.injEq] at hm
      subst hm
      simp only [patch_size] at ha
      simp only [storeLE]
      rw [if_neg (by omega)]
  | arm =>
    simp only [inline_hook_replace_inst, Option.some.injEq] at hm
    subst hm
    simp only [patch_size] at ha
    simp only [storeLE]
    rw [if_neg (by omega)]

/-- Every byte the patcher stores is overwritten: its new value does not depend on the memory
the patcher started from. -/
theorem replace_inst_inside (arch : Arch) (m n m' n' : Mem) (f h : Nat)
    (hm : inline_hook_replace_inst arch m f h = some m')
    (hn : inline_hook_replace_inst arch n f h = some n') (a : Nat)
    (ha : f ≤ a ∧ a < f + patch_size arch) : m' a = n' a := by
  cases arch with
  | x86_64 =>
    simp only [inline_hook_replace_inst, Option.some.injEq] at hm hn
    subst hm
    subst hn
    simp only [patch_size] at ha
    simp only [storeLE, storeByte]
    by_cases h1 : f + 1 ≤ a ∧ a < f + 1 + 8
    · rw [if_pos h1, if_pos h1]
    · rw [if_neg h1, if_neg h1, if_pos (by omega), if_pos (by omega)]
  | aarch64 =>
    simp only [inline_hook_replace_inst] at hm hn
    split at hm
    · exact absurd hm (by simp)
    · rename_i hc
      rw [if_neg hc] at hn
      simp only [Option.some.injEq] at hm hn
      subst hm
      subst hn
      simp only [patch_size] at ha
      simp only [storeLE]
      rw [if_pos ha, if_pos ha]
  | arm =>
    simp only [inline_hook_replace_inst, Option.some.injEq] at hm hn
    subst hm
    subst hn
    simp only [patch_size] at ha
    simp only [storeLE]
    rw [if_pos ha, if_pos ha]

/-- Memory after a returning `inline_hook`: the patcher applied to the memory that holds the
backup copy. -/
theorem inline_hook_mem (env : Env) (s s' : State) (f h : Nat)
    (hret : inline_hook env s f h = .returned s') :
    inline_hook_replace_inst env.arch
      (memcpy s.mem env.orig_bytes f (SIZE_ORIG_BYTES env.arch)) f h = some s'.mem := by
  simp only [inline_hook, inline_hook_widened, mprotect] at hret
  split at hret
  · split at hret
    · exact absurd hret (by simp)
    · rename_i m hm
      split at hret
      · simp only [Outcome.returned.injEq] at hret
        subst hret
        exact hm
      · exact absurd hret (by simp)
  · exact absurd hret (by simp)

/-- A returning `inline_hook` found the footprint readable and the buffer writable on entry,
and the bytes of the patch writable once the page of `f` had been widened. -/
theorem inline_hook_access (env : Env) (s s' : State) (f h : Nat)
    (hret : inline_hook env s f h = .returned s') :
    readable s f (SIZE_ORIG_BYTES env.arch) ∧
    writable s env.orig_bytes (SIZE_ORIG_BYTES env.arch) ∧
    writable (inline_hook_widened env s f) f (patch_size env.arch) := by
  simp only [inline_hook] at hret
  split at hret
  · rename_i hrw
    split at hret
    · exact absurd hret (by simp)
    · split at hret
      · rename_i hw
        exact ⟨hrw.1, hrw.2, hw⟩
      · exact absurd hret (by simp)
  · exact absurd hret (by simp)

/-- After a returning `inline_hook` on a footprint clear of the buffer, the buffer holds the
bytes the footprint had before. -/
theorem inline_hook_mem_buffer (env : Env) (s s' : State) (f h : Nat)
    (hdisj : f + SIZE_ORIG_BYTES env.arch ≤ env.orig_bytes ∨
      env.orig_bytes + SIZE_ORIG_BYTES env.arch ≤ f)
    (hret : inline_hook env s f h = .returned s') (i : Nat) (hi : i < SIZE_ORIG_BYTES env.arch) :
    s'.mem (env.orig_bytes + i) = s.mem (f + i) := by
  have hm := inline_hook_mem env s s' f h hret
  have hps := patch_size_le env.arch
  rw [replace_inst_outside env.arch _ _ f h hm (env.orig_bytes + i) (by omega)]
  simp only [memcpy]
  rw [if_pos (by omega)]
  congr 1
  omega

/-- A returning `inline_hook` changes no byte outside the buffer and the stored patch. -/
theorem inline_hook_mem_outside (env : Env) (s s' : State) (f h : Nat)
    (hret : inline_hook env s f h = .returned s') (a : Nat)
    (hbuf : ¬(env.orig_bytes ≤ a ∧ a < env.orig_bytes + SIZE_ORIG_BYTES env.arch))
    (hpatch : ¬(f ≤ a ∧ a < f + patch_size env.arch)) :
    s'.mem a = s.mem a := by
  have hm := inline_hook_mem env s s' f h hret
  rw [replace_inst_outside env.arch _ _ f h hm a hpatch]
  simp only [memcpy]
  rw [if_neg hbuf]

/-- The bytes stored by the patcher are the same whatever state `inline_hook` started from. -/
theorem inline_hook_mem_patch (env : Env) (s s' t t' : State) (f h : Nat)
    (hs : inline_hook env s f h = .returned s') (ht : inline_hook env t f h = .returned t')
    (a : Nat) (ha : f ≤ a ∧ a < f + patch_size env.arch) : s'.mem a = t'.mem a :=
  replace_inst_inside env.arch _ _ _ _ f h (inline_hook_mem env s s' f h hs)
    (inline_hook_mem env t t' f h ht) a ha

/-- Memory after a returning `remove_hook`: the footprint receives the buffer, the rest is
unchanged. -/
theorem remove_hook_mem (env : Env) (s s' : State) (f : Nat)
    (hret : remove_hook env s f = .returned s') (a : Nat) :
    s'.mem a =
      if f ≤ a ∧ a < f + SIZE_ORIG_BYTES env.arch then s.mem (env.orig_bytes + (a - f))
      else s.mem a := by
  simp only [remove_hook, remove_hook_widened, mprotect] at hret
  split at hret
  · simp only [Outcome.returned.injEq] at hret
    subst hret
    simp only [memcpy]
  · exact absurd hret (by simp)

/-- A call of `remove_hook` returns exactly when, after the page of `f` has been widened, the
buffer is readable and the whole footprint is writable; otherwise the process is killed. -/
theorem remove_hook_returned_iff (env : Env) (s : State) (f : Nat) :
    (∃ s', remove_hook env s f = .returned s') ↔
      readable (remove_hook_widened env s f) env.orig_bytes (SIZE_ORIG_BYTES env.arch) ∧
      writable (remove_hook_widened env s f) f (SIZE_ORIG_BYTES env.arch) := by
  constructor
  · rintro ⟨s', hret⟩
    simp only [remove_hook] at hret
    split at hret
    · assumption
    · exact absurd hret (by simp)
  · intro hacc
    simp only [remove_hook, if_pos hacc]
    exact ⟨_, rfl⟩

/-- When the footprint does not cross a page boundary, every footprint byte lies in the page
that the operation has widened at the moment of its writes. -/
theorem footprint_in_widened_page (env : Env) (k : Nat) (s : State) (f : Nat)
    (hk : k ≤ 30) (hps : env.pagesize = 2 ^ k) (hf : f < 2 ^ ptrBits env.arch)
    (hfit : f % 2 ^ k + SIZE_ORIG_BYTES env.arch ≤ 2 ^ k) (i : Nat)
    (hi : i < SIZE_ORIG_BYTES env.arch) :
    (inline_hook_widened env s f).prot (f + i) = PROT_READ ||| PROT_WRITE ||| PROT_EXEC ∧
    (remove_hook_widened env s f).prot (f + i) = PROT_READ ||| PROT_WRITE ||| PROT_EXEC := by
  have hw : 32 ≤ ptrBits env.arch := by cases env.arch <;> simp [ptrBits]
  have hlen : pageLen env = 2 ^ k := by
    simp only [pageLen, hps]
    exact toUnsigned_two_pow _ k (by omega)
  have heq := get_page_addr_eq env.arch k f hk hf
  rw [← hps] at heq
  have hle : f % 2 ^ k ≤ f := Nat.mod_le f _
  have hin : get_page_addr env.arch env.pagesize f ≤ f + i ∧
      f + i < get_page_addr env.arch env.pagesize f + 2 ^ k := by
    rw [heq]
    omega
  constructor
  · simp only [inline_hook_widened, mprotect, hlen]
    rw [if_pos hin]
  · simp only [remove_hook_widened, mprotect, hlen]
    rw [if_pos hin]


/-- When the footprint does not cross a page boundary and the buffer is readable, `remove_hook`
returns. -/
theorem remove_hook_returns_of_fit (env : Env) (k : Nat) (s : State) (f : Nat)
    (hk : k ≤ 30) (hps : env.pagesize = 2 ^ k) (hf : f < 2 ^ ptrBits env.arch)
    (hfit : f % 2 ^ k + SIZE_ORIG_BYTES env.arch ≤ 2 ^ k)
    (hread : readable (remove_hook_widened env s f) env.orig_bytes (SIZE_ORIG_BYTES env.arch)) :
    ∃ s', remove_hook env s f = .returned s' := by
  rw [remove_hook_returned_iff]
  refine ⟨hread, ?_⟩
  intro i hi
  rw [(footprint_in_widened_page env k s f hk hps hf hfit i hi).2]
  decide

/-- The x86-64 patcher leaves `E9` and the 32-bit displacement at `f`, a jump that decodes to
`h` when the displacement fits 32 signed bits. -/
theorem x86_64_patch (m : Mem) (f h : Nat) (hh : h < 2 ^ 64)
    (hlo : -(2 : Int) ^ 31 ≤ (h : Int) - f - 5) (hhi : (h : Int) - f - 5 < 2 ^ 31) :
    ∃ m', inline_hook_replace_inst .x86_64 m f h = some m' ∧
      m' f = 0xE9 ∧
      (∀ i, i < 4 → m' (f + 1 + i) = toUnsigned 32 ((h : Int) - f - 5) / 256 ^ i % 256) ∧
      decode_jmp_rel32 m' f = some h := by
  refine ⟨storeLE 8 (storeByte m (f + 0) 0xE9) (f + 1)
    (toUnsigned 64 (toSigned 64 ((h : Int) - (f : Int)) - 5)), rfl, ?_⟩
  generalize hm' : storeLE 8 (storeByte m (f + 0) 0xE9) (f + 1)
    (toUnsigned 64 (toSigned 64 ((h : Int) - (f : Int)) - 5)) = m'
  have hbyte0 : m' f = 0xE9 := by
    rw [← hm']
    simp only [storeLE, storeByte]
    rw [if_neg (by omega), if_pos (by omega)]
  have hbytes : ∀ i, i < 4 →
      m' (f + 1 + i) = toUnsigned 32 ((h : Int) - f - 5) / 256 ^ i % 256 := by
    intro i hi
    rw [← hm']
    simp only [storeLE]
    rw [if_pos (by omega)]
    have e : f + 1 + i - (f + 1) = i := by omega
    rw [e]
    simp only [toUnsigned, toSigned]
    interval_cases i <;> norm_num <;> omega
  refine ⟨hbyte0, hbytes, ?_⟩
  have hload : loadLE 4 m' (f + 1) = toUnsigned 32 ((h : Int) - f - 5) := by
    have b0 := hbytes 0 (by omega)
    have b1 := hbytes 1 (by omega)
    have b2 := hbytes 2 (by omega)
    have b3 := hbytes 3 (by omega)
    simp only [loadLE]
    rw [Nat.add_zero] at b0
    rw [b0, show f + 1 + 1 + 1 = f + 1 + 2 from rfl, show f + 1 + 1 + 1 + 1 = f + 1 + 3 from rfl,
      b1, b2, b3]
    have hlt : toUnsigned 32 ((h : Int) - f - 5) < 2 ^ 32 := by
      simp only [toUnsigned]; omega
    norm_num at hlt ⊢
    omega
  simp only [decode_jmp_rel32, hbyte0, if_true, hload, Option.some.injEq]
  simp only [toUnsigned, toSigned]
  norm_num at hh hlo hhi ⊢
  omega

/-- Redirection on x86-64 for an install that returns: the returned state holds `E9` and the
displacement at `f`, and the jump decodes to `h`. -/
theorem x86_64_redirects_of_returned (env : Env) (s s' : State) (f h : Nat)
    (harch : env.arch = .x86_64) (hh : h < 2 ^ 64)
    (hlo : -(2 : Int) ^ 31 ≤ (h : Int) - f - 5) (hhi : (h : Int) - f - 5 < 2 ^ 31)
    (hret : inline_hook env s f h = .returned s') :
    s'.mem f = 0xE9 ∧
    (∀ i, i < 4 → s'.mem (f + 1 + i) = toUnsigned 32 ((h : Int) - f - 5) / 256 ^ i % 256) ∧
    decode_jmp_rel32 s'.mem f = some h := by
  have hm := inline_hook_mem env s s' f h hret
  rw [harch] at hm
  obtain ⟨m', hm', hres⟩ := x86_64_patch
    (memcpy s.mem env.orig_bytes f (SIZE_ORIG_BYTES .x86_64)) f h hh hlo hhi
  rw [hm] at hm'
  simp only [Option.some.injEq] at hm'
  rw [hm']
  exact hres

/-- Round trip for an install and a removal that both return: with the footprint clear of the
buffer, every footprint byte is back to its value before the install. -/
theorem round_trip_of_returned (env : Env) (s s' s'' : State) (f h : Nat)
    (hdisj : f + SIZE_ORIG_BYTES env.arch ≤ env.orig_bytes ∨
      env.orig_bytes + SIZE_ORIG_BYTES env.arch ≤ f)
    (hret : inline_hook env s f h = .returned s')
    (hrem : remove_hook env s' f = .returned s'') :
    ∀ i, i < SIZE_ORIG_BYTES env.arch → s''.mem (f + i) = s.mem (f + i) := by
  intro i hi
  rw [remove_hook_mem env s' s'' f hrem, if_pos (by omega)]
  have e : f + i - f = i := by omega
  rw [e]
  exact inline_hook_mem_buffer env s s' f h hdisj hret i hi

/-- A removal that returns, on a footprint clear of the buffer: the footprint receives the
buffer contents and the buffer is left as it was. -/
theorem remove_hook_of_returned (env : Env) (s s' : State) (f : Nat)
    (hdisj : f + SIZE_ORIG_BYTES env.arch ≤ env.orig_bytes ∨
      env.orig_bytes + SIZE_ORIG_BYTES env.arch ≤ f)
    (hret : remove_hook env s f = .returned s') :
    (∀ i, i < SIZE_ORIG_BYTES env.arch → s'.mem (f + i) = s.mem (env.orig_bytes + i)) ∧
    (∀ i, i < SIZE_ORIG_BYTES env.arch →
      s'.mem (env.orig_bytes + i) = s.mem (env.orig_bytes + i)) := by
  constructor
  · intro i hi
    rw [remove_hook_mem env s s' f hret, if_pos (by omega)]
    have e : f + i - f = i := by omega
    rw [e]
  · intro i hi
    rw [remove_hook_mem env s s' f hret, if_neg (by omega)]

/-- Install and removal that both return, on a footprint clear of the buffer: every byte
outside the buffer is back to its value before the install. -/
theorem code_memory_restored_of_returned (env : Env) (s s' s'' : State) (f h : Nat)
    (hdisj : f + SIZE_ORIG_BYTES env.arch ≤ env.orig_bytes ∨
      env.orig_bytes + SIZE_ORIG_BYTES env.arch ≤ f)
    (hret : inline_hook env s f h = .returned s')
    (hrem : remove_hook env s' f = .returned s'') (a : Nat)
    (hbuf : ¬(env.orig_bytes ≤ a ∧ a < env.orig_bytes + SIZE_ORIG_BYTES env.arch)) :
    s''.mem a = s.mem a := by
  have hps := patch_size_le env.arch
  rw [remove_hook_mem env s' s'' f hrem]
  by_cases hin : f ≤ a ∧ a < f + SIZE_ORIG_BYTES env.arch
  · rw [if_pos hin, inline_hook_mem_buffer env s s' f h hdisj hret (a - f) (by omega)]
    congr 1
    omega
  · rw [if_neg hin]
    exact inline_hook_mem_outside env s s' f h hret a hbuf (by omega)

/-- Single backup slot for calls that all return: with the footprints of `f1` and `f2`
disjoint from each other and from the buffer, after install at `f1`, install at `f2` and
removal at `f1` the footprint of `f1` holds the original bytes of `f2`. -/
theorem single_backup_slot_of_returned (env : Env) (s s1 s2 s3 : State) (f1 h1 f2 h2 : Nat)
    (hd12 : f1 + SIZE_ORIG_BYTES env.arch ≤ f2 ∨ f2 + SIZE_ORIG_BYTES env.arch ≤ f1)
    (hd1 : f1 + SIZE_ORIG_BYTES env.arch ≤ env.orig_bytes ∨
      env.orig_bytes + SIZE_ORIG_BYTES env.arch ≤ f1)
    (hd2 : f2 + SIZE_ORIG_BYTES env.arch ≤ env.orig_bytes ∨
      env.orig_bytes + SIZE_ORIG_BYTES env.arch ≤ f2)
    (hr1 : inline_hook env s f1 h1 = .returned s1)
    (hr2 : inline_hook env s1 f2 h2 = .returned s2)
    (hr3 : remove_hook env s2 f1 = .returned s3) :
    (∀ i, i < SIZE_ORIG_BYTES env.arch → s3.mem (f1 + i) = s.mem (f2 + i)) ∧
    (∀ i, i < SIZE_ORIG_BYTES env.arch → s3.mem (env.orig_bytes + i) = s.mem (f2 + i)) := by
  have hps := patch_size_le env.arch
  have key : ∀ i, i < SIZE_ORIG_BYTES env.arch → s2.mem (env.orig_bytes + i) = s.mem (f2 + i) := by
    intro i hi
    rw [inline_hook_mem_buffer env s1 s2 f2 h2 hd2 hr2 i hi]
    exact inline_hook_mem_outside env s s1 f1 h1 hr1 (f2 + i) (by omega) (by omega)
  constructor
  · intro i hi
    rw [remove_hook_mem env s2 s3 f1 hr3, if_pos (by omega)]
    have e : f1 + i - f1 = i := by omega
    rw [e]
    exact key i hi
  · intro i hi
    rw [remove_hook_mem env s2 s3 f1 hr3, if_neg (by omega)]
    exact key i hi

/-! ## Claims on the hook life cycle and the resolver -/

/-- C1 (failing input). AArch64, 4 KiB pages, code pages read+execute, `f = 0x1ff0`: the
footprint `[0x1ff0, 0x2010)` is clear of the backup buffer and `inline_hook f 0x2ff0` returns
(its 4-byte store stays in the widened page), but `remove_hook f` widens only
`[0x1000, 0x2000)` before copying 32 bytes, so the process is killed and the footprint, whose
first byte the install changed, is not restored. -/
theorem round_trip_killed_at_page_end :
    0x1ff0 + SIZE_ORIG_BYTES .aarch64 ≤ (sampleEnv .aarch64).orig_bytes ∧
    inline_hook (sampleEnv .aarch64) sampleState 0x1ff0 0x2ff0
      = .returned (inline_hook (sampleEnv .aarch64) sampleState 0x1ff0 0x2ff0).state ∧
    (inline_hook (sampleEnv .aarch64) sampleState 0x1ff0 0x2ff0).state.mem 0x1ff0
      ≠ sampleState.mem 0x1ff0 ∧
    ¬writable
      (remove_hook_widened (sampleEnv .aarch64)
        (inline_hook (sampleEnv .aarch64) sampleState 0x1ff0 0x2ff0).state 0x1ff0)
      0x1ff0 (SIZE_ORIG_BYTES .aarch64) ∧
    remove_hook (sampleEnv .aarch64)
        (inline_hook (sampleEnv .aarch64) sampleState 0x1ff0 0x2ff0).state 0x1ff0
      = .faulted (remove_hook_widened (sampleEnv .aarch64)
          (inline_hook (sampleEnv .aarch64) sampleState 0x1ff0 0x2ff0).state 0x1ff0) := by
  refine ⟨by decide, rfl, by decide, by decide, rfl⟩

/-- C2. Resolver correctness: when the first mapping record whose third permission character
is `x` starts at a non-zero address `B` and the first symbol record named `n` has offset `o`,
`get_function_addr_elf_pie n` returns `(B + o - 0x1000) mod 2^64` and writes no error message,
whatever records follow the first executable mapping and the first matching symbol. -/
theorem resolver_first_match (arch : Arch) (pre post : List MapsRecord) (r : MapsRecord)
    (spre spost : List SymRecord) (q : SymRecord) (n : String)
    (harch : ptrBits arch = 64)
    (hpre : ∀ x ∈ pre, x.perms.c2 ≠ 'x') (hr : r.perms.c2 = 'x') (hB : r.start ≠ 0)
    (hspre : ∀ x ∈ spre, x.name ≠ n) (hq : q.name = n) :
    get_function_addr_elf_pie arch (some (pre ++ r :: post)) (some (spre ++ q :: spost)) n
      = ⟨(((r.start : Int) + (q.offset : Int) - 0x1000) % 2 ^ 64).toNat, none⟩ := by
  simp only [get_function_addr_elf_pie, scan_maps_append pre post r 0 hpre hr, if_neg hB,
    scan_offsets_append n spre spost q 0 "" hspre hq, hq, ne_eq, not_true_eq_false, if_false,
    toUnsigned, harch]

/-- Witness for C2: a header segment before the code segment, a library after it, and a
duplicate `target_fn` after the first one. -/
theorem resolver_first_match_witness :
    get_function_addr_elf_pie .x86_64
        (some ([⟨0x555555554000, ⟨'r', '-', '-', 'p'⟩⟩] ++
          ⟨0x555555555000, ⟨'r', '-', 'x', 'p'⟩⟩ :: [⟨0x7ffff7dd5000, ⟨'r', '-', 'x', 'p'⟩⟩]))
        (some ([⟨0x2139, "T", "main"⟩] ++
          ⟨0x2149, "T", "target_fn"⟩ :: [⟨0x3000, "T", "target_fn"⟩]))
        "target_fn"
      = ⟨((((0x555555555000 : Nat) : Int) + ((0x2149 : Nat) : Int) - 0x1000) % 2 ^ 64).toNat,
          none⟩ :=
  resolver_first_match .x86_64 [⟨0x555555554000, ⟨'r', '-', '-', 'p'⟩⟩]
    [⟨0x7ffff7dd5000, ⟨'r', '-', 'x', 'p'⟩⟩] ⟨0x555555555000, ⟨'r', '-', 'x', 'p'⟩⟩
    [⟨0x2139, "T", "main"⟩] [⟨0x3000, "T", "target_fn"⟩] ⟨0x2149, "T", "target_fn"⟩ "target_fn"
    rfl (by decide) (by decide) (by decide) (by decide) (by decide)

/-- C3 (failing input). With the empty string as requested name and an empty symbol table,
which holds no record of that name, `get_function_addr_elf_pie` writes no error message and
returns the zero-offset address `base - 0x1000` instead of the null result. -/
theorem missing_symbol_empty_name_resolves :
    get_function_addr_elf_pie .x86_64 (some sampleMaps) (some []) ""
      = ⟨0x555555554000, none⟩ := by
  decide

/-- C4 (failing input). x86-64, 4 KiB pages, code pages read+execute, `f = 0x1ffc`,
`h = 0x2100`: the displacement `h - f - 5 = 0xff` fits 32 signed bits, but the 9 bytes of the
patch reach `0x2004` while only `[0x1000, 0x2000)` has been widened, so the process is killed
inside the patcher and `inline_hook` never returns with the jump in place. -/
theorem x86_64_install_killed_at_page_end :
    (-(2 : Int) ^ 31 ≤ (0x2100 : Int) - 0x1ffc - 5 ∧ (0x2100 : Int) - 0x1ffc - 5 < 2 ^ 31) ∧
    get_page_addr .x86_64 4096 0x1ffc = 0x1000 ∧
    (inline_hook_widened (sampleEnv .x86_64) sampleState 0x1ffc).prot (0x1ffc + 4)
      = PROT_READ ||| PROT_EXEC ∧
    ¬writable (inline_hook_widened (sampleEnv .x86_64) sampleState 0x1ffc) 0x1ffc
      (patch_size .x86_64) ∧
    inline_hook (sampleEnv .x86_64) sampleState 0x1ffc 0x2100
      = .faulted (inline_hook_widened (sampleEnv .x86_64) sampleState 0x1ffc) := by
  refine ⟨by decide, by decide, by decide, by decide, rfl⟩

/-- C5 (failing input). A hook 16 GiB above the original function has displacement
`2^32` instruction units, outside `[-0x2000000, 0x1ffffff]`, yet the `int` offset is `0`:
the patcher does not terminate the process and writes `0x14000000`, a branch to `orig`
itself. -/
theorem aarch64_far_hook_not_rejected :
    ((0x400001000 : Int) - 0x1000) / 4 > 0x1ffffff ∧
      aarch64_offset 0x1000 0x400001000 = 0 ∧
      (∀ m : Mem, inline_hook_replace_inst .aarch64 m 0x1000 0x400001000
        = some (storeLE 4 m 0x1000 0x14000000)) ∧
      decode_b_imm26 0x14000000 0x1000 = some 0x1000 := by
  refine ⟨by decide, by decide, fun m => ?_, by decide⟩
  rfl

/-- C6. Branch-range rejection on AArch64: when `inline_hook` ends in `exit`, the range check
failed, and at that point every byte outside the backup buffer (all of code memory) has the
value it had before the call; in particular the footprint of a function that does not overlap
the buffer is untouched. -/
theorem range_rejection_precedes_patch (env : Env) (s s' : State) (f h status : Nat)
    (hex : inline_hook env s f h = .exited status s') :
    (env.arch = .aarch64 ∧
      (aarch64_offset f h < -0x2000000 ∨ aarch64_offset f h > 0x1ffffff)) ∧
    (∀ a, ¬(env.orig_bytes ≤ a ∧ a < env.orig_bytes + SIZE_ORIG_BYTES env.arch) →
        s'.mem a = s.mem a) ∧
    ((f + SIZE_ORIG_BYTES env.arch ≤ env.orig_bytes ∨
        env.orig_bytes + SIZE_ORIG_BYTES env.arch ≤ f) →
      ∀ i, i < SIZE_ORIG_BYTES env.arch → s'.mem (f + i) = s.mem (f + i)) := by
  simp only [inline_hook] at hex
  split at hex
  · split at hex
    · rename_i hnone
      simp only [Outcome.exited.injEq] at hex
      obtain ⟨-, hs'⟩ := hex
      subst hs'
      have hcheck : env.arch = .aarch64 ∧
          (aarch64_offset f h < -0x2000000 ∨ aarch64_offset f h > 0x1ffffff) := by
        cases harch : env.arch with
        | x86_64 => rw [harch] at hnone; simp [inline_hook_replace_inst] at hnone
        | arm => rw [harch] at hnone; simp [inline_hook_replace_inst] at hnone
        | aarch64 =>
          rw [harch] at hnone
          simp only [inline_hook_replace_inst] at hnone
          split at hnone
          · rename_i hc
            exact ⟨rfl, hc⟩
          · exact absurd hnone (by simp)
      have hframe : ∀ a,
          ¬(env.orig_bytes ≤ a ∧ a < env.orig_bytes + SIZE_ORIG_BYTES env.arch) →
          (inline_hook_widened env s f).mem a = s.mem a := by
        intro a ha
        simp only [inline_hook_widened, mprotect, memcpy]
        rw [if_neg ha]
      exact ⟨hcheck, hframe, fun hdisj i hi => hframe (f + i) (by omega)⟩
    · split at hex <;> exact absurd hex (by simp)
  · exact absurd hex (by simp)

/-- Witness for C6: a hook 256 MiB above the function is rejected (offset `2^26`), and byte 0
of the footprint is unchanged at the point of exit. -/
theorem range_rejection_precedes_patch_witness :
    inline_hook (sampleEnv .aarch64) sampleState 0x1000 0x10001000
        = .exited 1 (inline_hook (sampleEnv .aarch64) sampleState 0x1000 0x10001000).state ∧
      (inline_hook (sampleEnv .aarch64) sampleState 0x1000 0x10001000).state.mem (0x1000 + 0)
        = sampleState.mem (0x1000 + 0) :=
  ⟨rfl, (range_rejection_precedes_patch (sampleEnv .aarch64) sampleState _ 0x1000 0x10001000 1
    rfl).2.2 (by decide) 0 (by decide)⟩

/-- C8 (failing input). With a mapping listing of two records, neither executable, the scan
ends with `base_address` holding the start of the last record; the function writes no error
message and returns an address computed from that non-executable record. -/
theorem no_exec_region_resolves :
    scan_maps 0 sampleMapsNoExec = 0x555555557000 ∧
      get_function_addr_elf_pie .x86_64 (some sampleMapsNoExec) (some sampleSyms) "target_fn"
        = ⟨0x555555557000 + 0x2149 - 0x1000, none⟩ := by
  decide

/-- C9. Page alignment: for a page size `P = 2 ^ k` that fits a positive `int` and an address
`a` of pointer width, `get_page_addr a = a - a mod P`; it is a multiple of `P`, at most `a`,
less than `P` below `a`, and agrees with `a` above bit 32. -/
theorem get_page_addr_aligned (arch : Arch) (k a : Nat) (hk : k ≤ 30)
    (ha : a < 2 ^ ptrBits arch) :
    get_page_addr arch (2 ^ k) a = a - a % 2 ^ k ∧
    2 ^ k ∣ get_page_addr arch (2 ^ k) a ∧
    get_page_addr arch (2 ^ k) a ≤ a ∧
    a - get_page_addr arch (2 ^ k) a < 2 ^ k ∧
    get_page_addr arch (2 ^ k) a / 2 ^ 32 = a / 2 ^ 32 := by
  have heq := get_page_addr_eq arch k a hk ha
  have hpos : 0 < 2 ^ k := Nat.pow_pos (by decide)
  have hmod : a % 2 ^ k < 2 ^ k := Nat.mod_lt a hpos
  have hle : a % 2 ^ k ≤ a := Nat.mod_le a _
  have hdm := Nat.div_add_mod a (2 ^ k)
  have hval : a - a % 2 ^ k = 2 ^ k * (a / 2 ^ k) := by omega
  refine ⟨heq, ?_, ?_, ?_, ?_⟩
  · rw [heq, hval]; exact Dvd.intro _ rfl
  · rw [heq]; omega
  · rw [heq]; omega
  · rw [heq, hval]
    have h32 : (2 : Nat) ^ 32 = 2 ^ k * 2 ^ (32 - k) := by
      rw [← pow_add]; congr 1; omega
    rw [h32, ← Nat.div_div_eq_div_mul, ← Nat.div_div_eq_div_mul, Nat.mul_div_cancel_left _ hpos]

/-- Witness for C9: an address above 4 GiB on 4 KiB pages. -/
theorem get_page_addr_aligned_witness :
    get_page_addr .x86_64 (2 ^ 12) 0x7ffff7dd5abc = 0x7ffff7dd5abc - 0x7ffff7dd5abc % 2 ^ 12 ∧
      get_page_addr .x86_64 (2 ^ 12) 0x7ffff7dd5abc / 2 ^ 32 = 0x7ffff7dd5abc / 2 ^ 32 :=
  ⟨(get_page_addr_aligned .x86_64 12 0x7ffff7dd5abc (by decide) (by decide)).1,
    (get_page_addr_aligned .x86_64 12 0x7ffff7dd5abc (by decide) (by decide)).2.2.2.2⟩

/-- C10. AArch64 encoding: when `hook - orig = 4 * d` with `d` in `[-0x2000000, 0x1ffffff]`,
the patcher returns, the 32-bit word it leaves at `orig` is `0x14000000 | (d mod 2^26)`, and
that word decodes as an unconditional branch whose target is exactly `hook`. -/
theorem aarch64_branch_encoding (m : Mem) (orig hook : Nat) (d : Int)
    (ho : orig < 2 ^ 64) (hh : hook < 2 ^ 64) (hd : (hook : Int) - orig = 4 * d)
    (hlo : -0x2000000 ≤ d) (hhi : d ≤ 0x1ffffff) :
    ∃ m', inline_hook_replace_inst .aarch64 m orig hook = some m' ∧
      loadLE 4 m' orig = 0x14000000 ||| toUnsigned 26 d ∧
      decode_b_imm26 (loadLE 4 m' orig) orig = some hook := by
  have h1 : toSigned 64 (toSigned 64 (hook : Int) - toSigned 64 (orig : Int)) = 4 * d := by
    simp only [toSigned]
    norm_num at ho hh ⊢
    omega
  have hoff : aarch64_offset orig hook = d := by
    simp only [aarch64_offset]
    rw [h1, Int.mul_tdiv_cancel_left _ (by norm_num)]
    simp only [toSigned]
    norm_num
    omega
  have hx : toUnsigned 32 d &&& 0x03ffffff = toUnsigned 26 d := by
    have := Nat.and_pow_two_sub_one_eq_mod (toUnsigned 32 d) 26
    norm_num at this
    rw [this]
    simp only [toUnsigned]
    norm_num
    omega
  have hlt : toUnsigned 26 d < 2 ^ 26 := by
    simp only [toUnsigned]
    norm_num
    omega
  have hor : 0x14000000 ||| toUnsigned 26 d = 0x14000000 + toUnsigned 26 d := by
    have := Nat.mul_add_lt_is_or hlt 5
    norm_num at this
    exact this.symm
  have hword : loadLE 4 (storeLE 4 m orig (0x14000000 ||| toUnsigned 26 d)) orig
      = 0x14000000 ||| toUnsigned 26 d := by
    rw [loadLE_four_storeLE_four, hor]
    norm_num at hlt ⊢
    omega
  refine ⟨storeLE 4 m orig (0x14000000 ||| toUnsigned 26 d), ?_, hword, ?_⟩
  · simp only [inline_hook_replace_inst, hoff, hx]
    rw [if_neg (by omega)]
  · have hop : (0x14000000 + toUnsigned 26 d) / 2 ^ 26 = 5 := by
      norm_num at hlt ⊢
      omega
    rw [hword, hor]
    simp only [decode_b_imm26]
    rw [if_pos hop]
    simp only [Option.some.injEq, toUnsigned, toSigned]
    norm_num at ho hh ⊢
    omega

/-- Witness for C10: a backward branch of 19 instructions (`d = -19`). -/
theorem aarch64_branch_encoding_witness :
    loadLE 4 ((inline_hook_replace_inst .aarch64 sampleMem 0x2000 0x1fb4).getD sampleMem) 0x2000
        = 0x14000000 ||| toUnsigned 26 (-19) ∧
      decode_b_imm26
        (loadLE 4 ((inline_hook_replace_inst .aarch64 sampleMem 0x2000 0x1fb4).getD sampleMem)
          0x2000) 0x2000 = some 0x1fb4 := by
  obtain ⟨m', hm, hw, hdec⟩ := aarch64_branch_encoding sampleMem 0x2000 0x1fb4 (-19)
    (by decide) (by decide) (by decide) (by decide) (by decide)
  rw [hm]
  exact ⟨hw, hdec⟩

/-! ## Claims on the ARM encoding, write safety and the backup slot -/

/-- C11. 32-bit ARM encoding: for every `orig` and `hook` the patcher returns and the 32-bit
word it leaves at `orig` is `0xEA000000 | (((hook - orig - 8) / 4) & 0x00FFFFFF)`, the
difference being taken in `intptr_t` and the division truncating; when `hook - orig` is a
multiple of 4 and `(hook - orig - 8) / 4` lies in `[-2^23, 2^23 - 1]`, the word decodes as a
branch whose target `orig + 8 + 4 * signext24` is exactly `hook`. -/
theorem arm_branch_encoding (m : Mem) (orig hook : Nat) :
    ∃ m', inline_hook_replace_inst .arm m orig hook = some m' ∧
      loadLE 4 m' orig
        = 0xEA000000 ||| toUnsigned 24 (Int.tdiv (toSigned 32 ((hook : Int) - orig - 8)) 4) ∧
      (hook < 2 ^ 32 → ((hook : Int) - orig) % 4 = 0 →
        -(2 : Int) ^ 23 ≤ Int.tdiv ((hook : Int) - orig - 8) 4 →
        Int.tdiv ((hook : Int) - orig - 8) 4 ≤ 2 ^ 23 - 1 →
        decode_b_imm24 (loadLE 4 m' orig) orig = some hook) := by
  have hs : toSigned 32 (toSigned 32 (toSigned 32 (hook : Int) - toSigned 32 (orig : Int)) - 8)
      = toSigned 32 ((hook : Int) - orig - 8) := by
    simp only [toSigned]
    norm_num
    omega
  generalize hq : Int.tdiv (toSigned 32 ((hook : Int) - orig - 8)) 4 = q
  have hx : toUnsigned 32 q &&& 0x00FFFFFF = toUnsigned 24 q := by
    have := Nat.and_pow_two_sub_one_eq_mod (toUnsigned 32 q) 24
    norm_num at this
    rw [this]
    simp only [toUnsigned]
    norm_num
    omega
  have hlt : toUnsigned 24 q < 2 ^ 24 := by
    simp only [toUnsigned]
    norm_num
    omega
  have hor : 0xEA000000 ||| toUnsigned 24 q = 0xEA000000 + toUnsigned 24 q := by
    have := Nat.mul_add_lt_is_or hlt 0xEA
    norm_num at this
    exact this.symm
  have hword : loadLE 4 (storeLE 4 m orig (0xEA000000 ||| toUnsigned 24 q)) orig
      = 0xEA000000 ||| toUnsigned 24 q := by
    rw [loadLE_four_storeLE_four, hor]
    norm_num at hlt ⊢
    omega
  refine ⟨storeLE 4 m orig (0xEA000000 ||| toUnsigned 24 q), ?_, hword, ?_⟩
  · simp only [inline_hook_replace_inst, hs, hq, hx]
  · intro hh hmul hlo hhi
    obtain ⟨d, hd⟩ : ∃ d : Int, (hook : Int) - orig - 8 = 4 * d :=
      ⟨((hook : Int) - orig - 8) / 4, by omega⟩
    rw [hd, Int.mul_tdiv_cancel_left _ (by norm_num)] at hlo hhi
    have hqd : q = d := by
      rw [← hq, hd]
      have : toSigned 32 (4 * d) = 4 * d := by
        simp only [toSigned]
        norm_num at hlo hhi ⊢
        omega
      rw [this, Int.mul_tdiv_cancel_left _ (by norm_num)]
    have hop : (0xEA000000 + toUnsigned 24 q) / 2 ^ 24 = 0xEA := by
      norm_num at hlt ⊢
      omega
    rw [hword, hor]
    simp only [decode_b_imm24]
    rw [if_pos hop, hqd]
    simp only [Option.some.injEq, toUnsigned, toSigned]
    norm_num at hh hlo hhi ⊢
    omega

/-- Witness for C11: a backward branch from `0x10100` to `0x10000` (`-66` words from `pc + 8`). -/
theorem arm_branch_encoding_witness :
    loadLE 4 ((inline_hook_replace_inst .arm sampleMem 0x10100 0x10000).getD sampleMem) 0x10100
        = 0xEAFFFFBE ∧
      decode_b_imm24
        (loadLE 4 ((inline_hook_replace_inst .arm sampleMem 0x10100 0x10000).getD sampleMem)
          0x10100) 0x10100 = some 0x10000 := by
  obtain ⟨m', hm, hw, hdec⟩ := arm_branch_encoding sampleMem 0x10100 0x10000
  rw [hm]
  refine ⟨?_, hdec (by decide) (by decide) (by decide) (by decide)⟩
  rw [Option.getD_some, hw]
  decide

/-- C12 (failing input). Code pages are read+execute and pages are 4 KiB.  On AArch64,
`remove_hook 0x1ff0` widens only the page `[0x1000, 0x2000)` and then copies 32 bytes; byte 16
of the copy goes to `0x2000`, whose page is still read+execute, and the process is killed.  On
x86-64, `inline_hook 0x1ffc` lets the patcher store 9 bytes, of which the one at `0x2000` lies
in a page that was not widened either, and the process is killed. -/
theorem write_outside_widened_page :
    (∀ a, ¬(0x4000 ≤ a ∧ a < 0x5000) → sampleState.prot a = PROT_READ ||| PROT_EXEC) ∧
    (PROT_READ ||| PROT_EXEC) &&& PROT_WRITE = 0 ∧
    -- AArch64, `remove_hook 0x1ff0`: byte 16 of the 32 copied bytes
    get_page_addr .aarch64 4096 0x1ff0 = 0x1000 ∧
    16 < SIZE_ORIG_BYTES .aarch64 ∧
    (remove_hook_widened (sampleEnv .aarch64) sampleState 0x1ff0).prot (0x1ff0 + 16)
      = PROT_READ ||| PROT_EXEC ∧
    memcpy sampleState.mem 0x1ff0 0x4040 (SIZE_ORIG_BYTES .aarch64) (0x1ff0 + 16)
      = sampleState.mem (0x4040 + 16) ∧
    sampleState.mem (0x4040 + 16) ≠ sampleState.mem (0x1ff0 + 16) ∧
    remove_hook (sampleEnv .aarch64) sampleState 0x1ff0
      = .faulted (remove_hook_widened (sampleEnv .aarch64) sampleState 0x1ff0) ∧
    -- x86-64, `inline_hook 0x1ffc 0x12345678`: byte 4 of the 9 patch bytes
    get_page_addr .x86_64 4096 0x1ffc = 0x1000 ∧
    4 < patch_size .x86_64 ∧
    (inline_hook_widened (sampleEnv .x86_64) sampleState 0x1ffc).prot (0x1ffc + 4)
      = PROT_READ ||| PROT_EXEC ∧
    (inline_hook_replace_inst .x86_64
        (inline_hook_widened (sampleEnv .x86_64) sampleState 0x1ffc).mem 0x1ffc 0x12345678).map
      (fun m => m (0x1ffc + 4)) = some 0x12 ∧
    sampleState.mem (0x1ffc + 4) ≠ 0x12 ∧
    inline_hook (sampleEnv .x86_64) sampleState 0x1ffc 0x12345678
      = .faulted (inline_hook_widened (sampleEnv .x86_64) sampleState 0x1ffc) := by
  refine ⟨?_, by decide, by decide, by decide, by decide, by decide, by decide, rfl,
    by decide, by decide, by decide, by decide, by decide, rfl⟩
  intro a ha
  simp only [sampleState, sampleProt, if_neg ha]

/-- C13 (failing input). AArch64, 4 KiB pages, code pages read+execute, `f1 = 0x1ff0`,
`f2 = 0x3000`: the footprints are disjoint from each other and from the buffer and both
installs return, but `remove_hook f1` is killed while copying across the page boundary at
`0x2000`, so the footprint of `f1` does not receive the bytes of `f2`. -/
theorem single_backup_slot_killed_at_page_end :
    (0x1ff0 + SIZE_ORIG_BYTES .aarch64 ≤ 0x3000 ∧
      0x3000 + SIZE_ORIG_BYTES .aarch64 ≤ (sampleEnv .aarch64).orig_bytes) ∧
    inline_hook (sampleEnv .aarch64) sampleState 0x1ff0 0x2ff0
      = .returned (inline_hook (sampleEnv .aarch64) sampleState 0x1ff0 0x2ff0).state ∧
    inline_hook (sampleEnv .aarch64)
        (inline_hook (sampleEnv .aarch64) sampleState 0x1ff0 0x2ff0).state 0x3000 0x3100
      = .returned (inline_hook (sampleEnv .aarch64)
          (inline_hook (sampleEnv .aarch64) sampleState 0x1ff0 0x2ff0).state
          0x3000 0x3100).state ∧
    remove_hook (sampleEnv .aarch64)
        (inline_hook (sampleEnv .aarch64)
          (inline_hook (sampleEnv .aarch64) sampleState 0x1ff0 0x2ff0).state
          0x3000 0x3100).state 0x1ff0
      = .faulted (remove_hook_widened (sampleEnv .aarch64)
          (inline_hook (sampleEnv .aarch64)
            (inline_hook (sampleEnv .aarch64) sampleState 0x1ff0 0x2ff0).state
            0x3000 0x3100).state 0x1ff0) := by
  refine ⟨by decide, rfl, rfl, rfl⟩

/-- C14 (failing input). AArch64, 4 KiB pages, code pages read+execute, buffer still zero,
no install before: `remove_hook 0x1ff0` is killed inside its `memcpy`, because bytes 16 to 31
of the footprint lie in the page at `0x2000`, which was not widened; the footprint is not set
to the buffer contents. -/
theorem remove_hook_killed_at_page_end :
    (∀ i, i < SIZE_ORIG_BYTES .aarch64 →
      sampleInitialState.mem ((sampleEnv .aarch64).orig_bytes + i) = 0) ∧
    0x1ff0 + SIZE_ORIG_BYTES .aarch64 ≤ (sampleEnv .aarch64).orig_bytes ∧
    readable (remove_hook_widened (sampleEnv .aarch64) sampleInitialState 0x1ff0)
      (sampleEnv .aarch64).orig_bytes (SIZE_ORIG_BYTES .aarch64) ∧
    ¬writable (remove_hook_widened (sampleEnv .aarch64) sampleInitialState 0x1ff0)
      0x1ff0 (SIZE_ORIG_BYTES .aarch64) ∧
    remove_hook (sampleEnv .aarch64) sampleInitialState 0x1ff0
      = .faulted (remove_hook_widened (sampleEnv .aarch64) sampleInitialState 0x1ff0) := by
  refine ⟨by decide, by decide, by decide, by decide, rfl⟩

/-- C15 (failing input). x86-64, 4 KiB pages, code pages read+execute.  At `f = 0x1ff5` the
9-byte patch ends at `0x1ffd`, inside the widened page, and `inline_hook` returns, but the
16-byte restore of `remove_hook` reaches `0x2004` and the process is killed, so code memory is
not brought back to its state before the install.  At `f = 0x1ffc` the patch itself crosses
the page boundary and the process is killed before 9 bytes are written. -/
theorem restore_killed_at_page_end :
    0x1ff5 + patch_size .x86_64 ≤ 0x2000 ∧
    0x2000 < 0x1ff5 + SIZE_ORIG_BYTES .x86_64 ∧
    inline_hook (sampleEnv .x86_64) sampleState 0x1ff5 0x2100
      = .returned (inline_hook (sampleEnv .x86_64) sampleState 0x1ff5 0x2100).state ∧
    (inline_hook (sampleEnv .x86_64) sampleState 0x1ff5 0x2100).state.mem 0x1ff5
      ≠ sampleState.mem 0x1ff5 ∧
    remove_hook (sampleEnv .x86_64)
        (inline_hook (sampleEnv .x86_64) sampleState 0x1ff5 0x2100).state 0x1ff5
      = .faulted (remove_hook_widened (sampleEnv .x86_64)
          (inline_hook (sampleEnv .x86_64) sampleState 0x1ff5 0x2100).state 0x1ff5) ∧
    0x2000 < 0x1ffc + patch_size .x86_64 ∧
    inline_hook (sampleEnv .x86_64) sampleState 0x1ffc 0x2100
      = .faulted (inline_hook_widened (sampleEnv .x86_64) sampleState 0x1ffc) := by
  refine ⟨by decide, by decide, rfl, by decide, rfl, by decide, rfl⟩

end InlineHook
